import Mathlib

/-!
Verification development for the agrichatbot RAG pipeline.

The TypeScript sources are shallowly embedded in Lean:
* JS strings become `String` (or `List Char` where structural induction is
  needed); JS number arithmetic is idealised as exact rationals `ℚ`, except
  that the NaN produced by `0/0` in `cosineSimilarity` is modelled explicitly;
* asynchronous fallible calls (vector search, the language-model API, file
  reads) are modelled as `Except String` values supplied through an
  environment record, `try`/`catch` as a `match` on the `Except`;
* the in-memory chunk store (a JS `Map`, iterated in insertion order) is
  modelled as a `List` in insertion order.
-/

/-- JS `String.prototype.toLowerCase()` restricted to the ASCII case used by
the sources (`server/services/dataProcessor.ts`). -/
def toLowerStr (s : String) : String := ⟨s.toList.map Char.toLower⟩

/-- JS `String.prototype.includes(sub)` (substring containment). -/
def includesStr (s sub : String) : Bool := decide (sub.toList <:+: s.toList)

/-- The apostrophe character, used to build the literal message strings of the
sources. -/
def aposStr : String := String.singleton (Char.ofNat 39)

/-! ### MemStorage.cosineSimilarity (server/storage.ts, lines 135-140)

The source computes `dot / (‖a‖ * ‖b‖)` over JS floats.  We keep the exact
rational data `dot` and `‖a‖² * ‖b‖²` and record explicitly the two ways the
JS expression evaluates to NaN: `b` shorter than `a` (so `b[i]` is `undefined`
inside the reduce) and a zero denominator (in which case the numerator is also
zero, giving `0/0`).  `SimVal.fin d q` denotes the real number `d / √q`. -/

/-- `a.reduce((sum, ai, i) => sum + ai * b[i], 0)` for `a.length ≤ b.length`. -/
def dotProduct (a b : List ℚ) : ℚ := ((a.zip b).map (fun p => p.1 * p.2)).sum

/-- `v.reduce((sum, vi) => sum + vi * vi, 0)`, the squared magnitude. -/
def sumSq (v : List ℚ) : ℚ := (v.map (fun x => x * x)).sum

/-- Result of `cosineSimilarity`: either NaN or the real number `dot / √denomSq`. -/
inductive SimVal where
  | nan : SimVal
  | fin (dot : ℚ) (denomSq : ℚ) : SimVal
deriving DecidableEq

/-- `MemStorage.cosineSimilarity(a, b)`.  When `b` is shorter than `a` the JS
reduce reads `undefined` and the result is NaN; when `‖a‖ * ‖b‖ = 0` the
numerator is forced to `0` as well (with equal lengths a zero squared magnitude
means the vector is zero), so the JS division is `0/0 = NaN`.  Otherwise the
value is `dot / (√(sumSq a) * √(sumSq b)) = dot / √(sumSq a * sumSq b)`. -/
def cosineSimilarity (a b : List ℚ) : SimVal :=
  if b.length < a.length then .nan
  else if sumSq a * sumSq b = 0 then .nan
  else .fin (dotProduct a b) (sumSq a * sumSq b)

/-- The real number denoted by a `SimVal` (`none` for NaN). -/
noncomputable def SimVal.toReal : SimVal → Option ℝ
  | .nan => none
  | .fin d q => some ((d : ℝ) / Real.sqrt (q : ℚ))

theorem sumSq_nonneg (v : List ℚ) : 0 ≤ sumSq v := by
  induction v with
  | nil => simp [sumSq]
  | cons x xs ih =>
    simp only [sumSq, List.map_cons, List.sum_cons]
    have := mul_self_nonneg x
    simp only [sumSq] at ih
    linarith

theorem dotProduct_comm (a b : List ℚ) (h : a.length = b.length) :
    dotProduct a b = dotProduct b a := by
  induction a generalizing b with
  | nil => cases b <;> simp_all [dotProduct]
  | cons x xs ih =>
    cases b with
    | nil => simp at h
    | cons y ys =>
      simp only [List.length_cons, Nat.succ_inj] at h
      simp only [dotProduct, List.zip_cons_cons, List.map_cons, List.sum_cons]
      have := ih ys h
      simp only [dotProduct] at this
      rw [this, mul_comm]

theorem dotProduct_self (v : List ℚ) : dotProduct v v = sumSq v := by
  induction v with
  | nil => rfl
  | cons x xs ih =>
    simp only [dotProduct, sumSq, List.zip_cons_cons, List.map_cons, List.sum_cons] at ih ⊢
    rw [ih]

theorem sqrt_ratCast_mul_self (s : ℚ) (hs : 0 ≤ s) :
    Real.sqrt ((s * s : ℚ) : ℝ) = (s : ℝ) := by
  push_cast
  exact Real.sqrt_mul_self (by exact_mod_cast hs)

/-- C3 (amended): `cosineSimilarity` is symmetric on equal-length vectors and
returns exactly `1` on a vector of nonzero magnitude paired with itself; but
when either argument has zero magnitude the JS division is `0/0` and the
result is NaN (an undefined value), not `0`. -/
theorem cosineSimilarity_spec :
    (∀ a b : List ℚ, a.length = b.length →
      cosineSimilarity a b = cosineSimilarity b a) ∧
    (∀ v : List ℚ, sumSq v ≠ 0 → (cosineSimilarity v v).toReal = some 1) ∧
    (∀ a b : List ℚ, a.length = b.length → sumSq a * sumSq b = 0 →
      cosineSimilarity a b = SimVal.nan) := by
  refine ⟨?_, ?_, ?_⟩
  · intro a b h
    unfold cosineSimilarity
    rw [dotProduct_comm a b h, mul_comm (sumSq a) (sumSq b), h]
  · intro v hv
    have hlen : ¬ (v.length < v.length) := lt_irrefl _
    have hden : sumSq v * sumSq v ≠ 0 := mul_ne_zero hv hv
    unfold cosineSimilarity
    rw [if_neg hlen, if_neg hden]
    simp only [SimVal.toReal, dotProduct_self,
      sqrt_ratCast_mul_self (sumSq v) (sumSq_nonneg v), Option.some.injEq]
    exact div_self (by exact_mod_cast hv)
  · intro a b h h0
    have hlen : ¬ (b.length < a.length) := by
      rw [h]
      exact lt_irrefl _
    unfold cosineSimilarity
    rw [if_neg hlen, if_pos h0]

theorem cosineSimilarity_spec_witness :
    cosineSimilarity [(1 : ℚ), 2] [3, 4] = cosineSimilarity [3, 4] [(1 : ℚ), 2] ∧
    (cosineSimilarity [(1 : ℚ)] [1]).toReal = some 1 ∧
    cosineSimilarity [(0 : ℚ)] [0] = SimVal.nan :=
  ⟨cosineSimilarity_spec.1 [1, 2] [3, 4] rfl,
   cosineSimilarity_spec.2.1 [1] (by simp [sumSq]),
   cosineSimilarity_spec.2.2 [0] [0] rfl (by simp [sumSq])⟩

/-- C3 counterexample: on the zero vector, `cosineSimilarity` evaluates
`0 / (0 * 0)`, i.e. JS `0/0 = NaN` — it does not return the number `0` as the
claim states. -/
theorem cosineSimilarity_zero_counterexample :
    cosineSimilarity [(0 : ℚ)] [0] = SimVal.nan ∧
    (cosineSimilarity [(0 : ℚ)] [0]).toReal ≠ some 0 := by
  have h : cosineSimilarity [(0 : ℚ)] [0] = SimVal.nan := by
    simp [cosineSimilarity, sumSq]
  refine ⟨h, ?_⟩
  rw [h]
  simp [SimVal.toReal]

/-! ### MemStorage.searchChunksByEmbedding (server/storage.ts, lines 121-133)

The JS `Map` of chunks is iterated by `Array.from(this.chunks.values())` in
insertion order, so the store is modelled as a `List Chunk` in insertion
order.  `Array.prototype.sort` with comparator `(a, b) => b.score - a.score`
is (since ES2019) a stable sort by descending score; with all scores defined
(non-NaN) this is exactly stable insertion sort with the relation
"`a` may stay before `b` iff `score b ≤ score a`".  Comparing the real scores
`d / √q` is equivalent to comparing the rational keys `d * |d| / q` (the map
`x ↦ x * |x|` is strictly monotone), which `scoreGe` uses. -/

/-- Chunk record (shared/schema.ts); `metadata` keeps the two fields the
pipeline reads (`fileName`, `type`), each `none` when absent. -/
structure ChunkMeta where
  fileName : Option String
  type : Option String
deriving DecidableEq

structure Chunk where
  id : String
  datasetId : Option String
  content : String
  embedding : Option (List ℚ)
  metadata : Option ChunkMeta
deriving DecidableEq

/-- JS filter `chunk.embedding && chunk.embedding.length > 0` (a `null` or
`undefined` embedding is falsy; an empty array is truthy but fails the length
test). -/
def hasEmbedding (c : Chunk) : Bool :=
  match c.embedding with
  | none => false
  | some e => decide (0 < e.length)

/-- Rational key `d * |d| / q` with the same order as the real value `d / √q`
(for `q > 0`); `none` for NaN. -/
def simKey : SimVal → Option ℚ
  | .nan => none
  | .fin d q => some (d * |d| / q)

/-- Comparator semantics of `(a, b) => b.score - a.score`: `scoreGe x y` holds
iff the sort may keep `x` before `y`.  With a NaN score the JS comparator is
inconsistent and the engine keeps the incoming order, modelled by `true`. -/
def scoreGe (x y : SimVal) : Bool :=
  match simKey x, simKey y with
  | some kx, some ky => decide (ky ≤ kx)
  | _, _ => true

/-- `MemStorage.searchChunksByEmbedding(embedding, limit)`: filter out chunks
without a stored vector, score by cosine similarity against the query
embedding, stable-sort by descending score, truncate to `limit`. -/
def searchChunksByEmbedding (stored : List Chunk) (embedding : List ℚ)
    (limit : Nat) : List Chunk :=
  (((((stored.filter hasEmbedding).map
        (fun c => (c, cosineSimilarity embedding (c.embedding.getD [])))).insertionSort
      (fun p q => scoreGe p.2 q.2 = true)).take limit).map Prod.fst)

/-- The similarity score of a chunk against query vector `q`, as a `SimVal`. -/
def chunkScore (q : List ℚ) (c : Chunk) : SimVal :=
  cosineSimilarity q (c.embedding.getD [])

/-- The real similarity score of a chunk (`0` in the NaN case, which the
ordering theorems exclude by hypothesis). -/
noncomputable def simRe (q : List ℚ) (c : Chunk) : ℝ :=
  ((chunkScore q c).toReal).getD 0

theorem mulAbs_strictMono : StrictMono (fun x : ℝ => x * |x|) := by
  intro a b h
  simp only
  rcases abs_cases a with ⟨ha1, ha2⟩ | ⟨ha1, ha2⟩ <;>
    rcases abs_cases b with ⟨hb1, hb2⟩ | ⟨hb1, hb2⟩ <;>
      rw [ha1, hb1] <;> nlinarith

theorem mulAbs_div_eq (d q : ℚ) (hq : 0 < q) :
    ((d : ℝ) / Real.sqrt (q : ℚ)) * |(d : ℝ) / Real.sqrt (q : ℚ)| =
      ((d * |d| / q : ℚ) : ℝ) := by
  have hs : (0 : ℝ) < Real.sqrt (q : ℚ) := Real.sqrt_pos.mpr (by exact_mod_cast hq)
  rw [abs_div, abs_of_pos hs, div_mul_div_comm,
    Real.mul_self_sqrt (le_of_lt (by exact_mod_cast hq))]
  push_cast
  ring

theorem simKey_le_iff (d₁ q₁ d₂ q₂ : ℚ) (h₁ : 0 < q₁) (h₂ : 0 < q₂) :
    d₁ * |d₁| / q₁ ≤ d₂ * |d₂| / q₂ ↔
      (d₁ : ℝ) / Real.sqrt (q₁ : ℚ) ≤ (d₂ : ℝ) / Real.sqrt (q₂ : ℚ) := by
  constructor
  · intro h
    have h' : ((d₁ * |d₁| / q₁ : ℚ) : ℝ) ≤ ((d₂ * |d₂| / q₂ : ℚ) : ℝ) := by
      exact_mod_cast h
    rw [← mulAbs_div_eq d₁ q₁ h₁, ← mulAbs_div_eq d₂ q₂ h₂] at h'
    exact mulAbs_strictMono.le_iff_le.mp h'
  · intro h
    have h' := mulAbs_strictMono.monotone h
    simp only at h'
    rw [mulAbs_div_eq d₁ q₁ h₁, mulAbs_div_eq d₂ q₂ h₂] at h'
    exact_mod_cast h'

theorem simKey_eq_iff (d₁ q₁ d₂ q₂ : ℚ) (h₁ : 0 < q₁) (h₂ : 0 < q₂) :
    d₁ * |d₁| / q₁ = d₂ * |d₂| / q₂ ↔
      (d₁ : ℝ) / Real.sqrt (q₁ : ℚ) = (d₂ : ℝ) / Real.sqrt (q₂ : ℚ) := by
  constructor
  · intro h
    apply mulAbs_strictMono.injective
    simp only
    rw [mulAbs_div_eq d₁ q₁ h₁, mulAbs_div_eq d₂ q₂ h₂]
    exact_mod_cast h
  · intro h
    have h' := congrArg (fun x : ℝ => x * |x|) h
    simp only at h'
    rw [mulAbs_div_eq d₁ q₁ h₁, mulAbs_div_eq d₂ q₂ h₂] at h'
    exact_mod_cast h'

section StableSort

variable {α : Type} (r : α → α → Prop) [DecidableRel r] (D : α → Prop)

theorem pairwise_orderedInsert
    (htot : ∀ x y, D x → D y → r x y ∨ r y x)
    (htrans : ∀ x y z, D x → D y → D z → r x y → r y z → r x z)
    (a : α) (l : List α) (hD : ∀ x ∈ a :: l, D x) (hl : l.Pairwise r) :
    (l.orderedInsert r a).Pairwise r := by
  induction l with
  | nil => simp
  | cons b t ih =>
    rw [List.orderedInsert]
    by_cases hab : r a b
    · rw [if_pos hab]
      refine List.Pairwise.cons ?_ hl
      intro x hx
      rcases List.mem_cons.mp hx with hxb | hxt
      · exact hxb ▸ hab
      · exact htrans a b x (hD a (by simp)) (hD b (by simp)) (hD x (by simp [hxt]))
          hab ((List.pairwise_cons.mp hl).1 x hxt)
    · rw [if_neg hab]
      have hba : r b a :=
        (htot a b (hD a (by simp)) (hD b (by simp))).resolve_left hab
      refine List.Pairwise.cons ?_ ?_
      · intro x hx
        rcases (List.mem_orderedInsert r).mp hx with hxa | hxt
        · exact hxa ▸ hba
        · exact (List.pairwise_cons.mp hl).1 x hxt
      · exact ih (fun x hx => hD x (by
          rcases List.mem_cons.mp hx with h1 | h1
          · simp [h1]
          · simp [h1])) (List.pairwise_cons.mp hl).2

theorem pairwise_insertionSort
    (htot : ∀ x y, D x → D y → r x y ∨ r y x)
    (htrans : ∀ x y z, D x → D y → D z → r x y → r y z → r x z)
    (l : List α) (hD : ∀ x ∈ l, D x) :
    (l.insertionSort r).Pairwise r := by
  induction l with
  | nil => simp
  | cons a t ih =>
    rw [List.insertionSort]
    refine pairwise_orderedInsert r D htot htrans a (t.insertionSort r) ?_
      (ih (fun x hx => hD x (by simp [hx])))
    intro x hx
    rcases List.mem_cons.mp hx with h1 | h1
    · exact hD x (by simp [h1])
    · exact hD x (by simp [(List.perm_insertionSort r t).mem_iff.mp h1])

theorem filter_orderedInsert (C : α → Bool) (a : α) (l : List α)
    (h : C a = true → ∀ b ∈ l, ¬ r a b → C b = false) :
    (l.orderedInsert r a).filter C =
      if C a then a :: l.filter C else l.filter C := by
  induction l with
  | nil => cases hCa : C a <;> simp [List.filter, hCa]
  | cons b t ih =>
    rw [List.orderedInsert]
    by_cases hab : r a b
    · rw [if_pos hab, List.filter_cons]
    · rw [if_neg hab, List.filter_cons]
      cases hCa : C a with
      | true =>
        have hCb : C b = false := h hCa b (by simp) hab
        rw [hCb]
        simp only [Bool.false_eq_true, if_false, if_pos hCa]
        rw [ih (fun _ b' hb' => h hCa b' (by simp [hb']))]
        rw [if_pos hCa, List.filter_cons, hCb]
        simp
      | false =>
        rw [ih (fun hCa' => absurd hCa' (by simp [hCa]))]
        simp only [Bool.false_eq_true, if_false, if_neg, List.filter_cons]
        cases hCb : C b <;> simp [hCa, hCb]

theorem filter_insertionSort (C : α → Bool) (l : List α)
    (h : ∀ x ∈ l, ∀ y ∈ l, C x = true → ¬ r x y → C y = false) :
    (l.insertionSort r).filter C = l.filter C := by
  induction l with
  | nil => rfl
  | cons a t ih =>
    rw [List.insertionSort,
      filter_orderedInsert r C a (t.insertionSort r) ?_, List.filter_cons]
    · rw [ih (fun x hx y hy => h x (by simp [hx]) y (by simp [hy]))]
    · intro hCa b hb
      exact h a (by simp) b
        (by simp [(List.perm_insertionSort r t).mem_iff.mp hb]) hCa

end StableSort

theorem hasEmbedding_iff (c : Chunk) :
    hasEmbedding c = true ↔ ∃ e, c.embedding = some e ∧ 0 < e.length := by
  unfold hasEmbedding
  cases h : c.embedding <;> simp [h]

theorem chunkScore_fin (q : List ℚ) (hq : sumSq q ≠ 0) (c : Chunk) (e : List ℚ)
    (he : c.embedding = some e) (hlen : q.length ≤ e.length) (hse : sumSq e ≠ 0) :
    chunkScore q c = SimVal.fin (dotProduct q e) (sumSq q * sumSq e) ∧
      0 < sumSq q * sumSq e := by
  constructor
  · unfold chunkScore cosineSimilarity
    rw [he, Option.getD_some, if_neg (not_lt.mpr hlen), if_neg (mul_ne_zero hq hse)]
  · exact lt_of_le_of_ne (mul_nonneg (sumSq_nonneg q) (sumSq_nonneg e))
      (Ne.symm (mul_ne_zero hq hse))

theorem scoreGe_fin_iff (d₁ q₁ d₂ q₂ : ℚ) :
    scoreGe (SimVal.fin d₁ q₁) (SimVal.fin d₂ q₂) = true ↔
      d₂ * |d₂| / q₂ ≤ d₁ * |d₁| / q₁ := by
  simp [scoreGe, simKey]

theorem simRe_of_fin (q : List ℚ) (c : Chunk) (d dq : ℚ)
    (h : chunkScore q c = SimVal.fin d dq) :
    simRe q c = (d : ℝ) / Real.sqrt (dq : ℚ) := by
  unfold simRe
  rw [h]
  rfl

/-- C4: with a query of nonzero magnitude and stored embeddings that are
dimension-compatible and of nonzero magnitude (so that no similarity is NaN
and the JS comparator is consistent), `searchChunksByEmbedding` returns at
most `k` chunks, never a chunk whose stored embedding is absent or empty,
in non-increasing order of real cosine similarity, and the chunks of any
fixed similarity appear as a prefix of the insertion-ordered candidates with
that similarity (ties broken by insertion order); the rational sort key
agrees with the real similarity on ties. -/
theorem searchChunksByEmbedding_spec (stored : List Chunk) (q : List ℚ) (k : Nat)
    (hq : sumSq q ≠ 0)
    (hc : ∀ c ∈ stored, ∀ e, c.embedding = some e →
      q.length ≤ e.length ∧ sumSq e ≠ 0) :
    (searchChunksByEmbedding stored q k).length ≤ k ∧
    (∀ c ∈ searchChunksByEmbedding stored q k,
      ∃ e, c.embedding = some e ∧ e ≠ []) ∧
    (searchChunksByEmbedding stored q k).Pairwise
      (fun c c' => simRe q c' ≤ simRe q c) ∧
    (∀ v : ℚ,
      (searchChunksByEmbedding stored q k).filter
          (fun c => decide (simKey (chunkScore q c) = some v)) <+:
        (stored.filter hasEmbedding).filter
          (fun c => decide (simKey (chunkScore q c) = some v))) ∧
    (∀ c ∈ stored.filter hasEmbedding, ∀ c' ∈ stored.filter hasEmbedding,
      (simKey (chunkScore q c) = simKey (chunkScore q c') ↔
        simRe q c = simRe q c')) := by
  have hfiltered : ∀ c ∈ stored.filter hasEmbedding,
      ∃ d dq, chunkScore q c = SimVal.fin d dq ∧ 0 < dq := by
    intro c hcmem
    rcases List.mem_filter.mp hcmem with ⟨hcs, hce⟩
    rcases (hasEmbedding_iff c).mp hce with ⟨e, he, _⟩
    rcases hc c hcs e he with ⟨hlen, hse⟩
    rcases chunkScore_fin q hq c e he hlen hse with ⟨hfin, hpos⟩
    exact ⟨dotProduct q e, sumSq q * sumSq e, hfin, hpos⟩
  have hmemScored : ∀ p ∈ (stored.filter hasEmbedding).map
      (fun c => (c, cosineSimilarity q (c.embedding.getD []))),
      p.1 ∈ stored.filter hasEmbedding ∧ p.2 = chunkScore q p.1 := by
    intro p hp
    rcases List.mem_map.mp hp with ⟨c, hcmem, rfl⟩
    exact ⟨hcmem, rfl⟩
  have hmemSorted : ∀ p ∈ ((stored.filter hasEmbedding).map
      (fun c => (c, cosineSimilarity q (c.embedding.getD [])))).insertionSort
        (fun p p' => scoreGe p.2 p'.2 = true),
      p.1 ∈ stored.filter hasEmbedding ∧ p.2 = chunkScore q p.1 := by
    intro p hp
    exact hmemScored p ((List.perm_insertionSort _ _).mem_iff.mp hp)
  have hDD : ∀ p ∈ ((stored.filter hasEmbedding).map
      (fun c => (c, cosineSimilarity q (c.embedding.getD [])))),
      ∃ d dq, p.2 = SimVal.fin d dq ∧ 0 < dq := by
    intro p hp
    rcases hmemScored p hp with ⟨h1, h2⟩
    rcases hfiltered p.1 h1 with ⟨d, dq, hfin, hpos⟩
    exact ⟨d, dq, h2.trans hfin, hpos⟩
  have htot : ∀ x y : Chunk × SimVal,
      (∃ d dq, x.2 = SimVal.fin d dq ∧ 0 < dq) →
      (∃ d dq, y.2 = SimVal.fin d dq ∧ 0 < dq) →
      (scoreGe x.2 y.2 = true) ∨ (scoreGe y.2 x.2 = true) := by
    rintro x y ⟨d1, q1, hx, _⟩ ⟨d2, q2, hy, _⟩
    rw [hx, hy, scoreGe_fin_iff, scoreGe_fin_iff]
    exact le_total (d2 * |d2| / q2) (d1 * |d1| / q1)
  have htrans : ∀ x y z : Chunk × SimVal,
      (∃ d dq, x.2 = SimVal.fin d dq ∧ 0 < dq) →
      (∃ d dq, y.2 = SimVal.fin d dq ∧ 0 < dq) →
      (∃ d dq, z.2 = SimVal.fin d dq ∧ 0 < dq) →
      scoreGe x.2 y.2 = true → scoreGe y.2 z.2 = true →
      scoreGe x.2 z.2 = true := by
    rintro x y z ⟨d1, q1, hx, _⟩ ⟨d2, q2, hy, _⟩ ⟨d3, q3, hz, _⟩ h1 h2
    rw [hx, hy, scoreGe_fin_iff] at h1
    rw [hy, hz, scoreGe_fin_iff] at h2
    rw [hx, hz, scoreGe_fin_iff]
    exact le_trans h2 h1
  have hsorted := pairwise_insertionSort
    (fun p p' : Chunk × SimVal => scoreGe p.2 p'.2 = true)
    (fun p => ∃ d dq, p.2 = SimVal.fin d dq ∧ 0 < dq) htot htrans
    ((stored.filter hasEmbedding).map
      (fun c => (c, cosineSimilarity q (c.embedding.getD [])))) hDD
  refine ⟨?_, ?_, ?_, ?_, ?_⟩
  · unfold searchChunksByEmbedding
    rw [List.length_map, List.length_take]
    exact min_le_left _ _
  · intro c hcmem
    unfold searchChunksByEmbedding at hcmem
    rcases List.mem_map.mp hcmem with ⟨p, hp, rfl⟩
    have hp' := hmemSorted p ((List.take_sublist _ _).mem hp)
    rcases List.mem_filter.mp hp'.1 with ⟨_, hce⟩
    rcases (hasEmbedding_iff p.1).mp hce with ⟨e, he, hel⟩
    exact ⟨e, he, List.ne_nil_of_length_pos hel⟩
  · unfold searchChunksByEmbedding
    rw [List.pairwise_map]
    refine List.Pairwise.imp_of_mem ?_
      (hsorted.sublist (List.take_sublist _ _))
    intro p p' hp hp' hr
    have h1 := hmemSorted p ((List.take_sublist _ _).mem hp)
    have h2 := hmemSorted p' ((List.take_sublist _ _).mem hp')
    rcases hfiltered p.1 h1.1 with ⟨d1, q1, hfin1, hpos1⟩
    rcases hfiltered p'.1 h2.1 with ⟨d2, q2, hfin2, hpos2⟩
    rw [h1.2, h2.2, hfin1, hfin2, scoreGe_fin_iff] at hr
    rw [simRe_of_fin q p.1 d1 q1 hfin1, simRe_of_fin q p'.1 d2 q2 hfin2]
    exact (simKey_le_iff d2 q2 d1 q1 hpos2 hpos1).mp hr
  · intro v
    unfold searchChunksByEmbedding
    rw [List.filter_map]
    have hstep₁ : (((((stored.filter hasEmbedding).map
        (fun c => (c, cosineSimilarity q (c.embedding.getD [])))).insertionSort
          (fun p p' => scoreGe p.2 p'.2 = true)).take k).filter
            ((fun c => decide (simKey (chunkScore q c) = some v)) ∘ Prod.fst)) <+:
        ((((stored.filter hasEmbedding).map
        (fun c => (c, cosineSimilarity q (c.embedding.getD [])))).insertionSort
          (fun p p' => scoreGe p.2 p'.2 = true)).filter
            ((fun c => decide (simKey (chunkScore q c) = some v)) ∘ Prod.fst)) :=
      (List.take_prefix _ _).filter _
    have hstep₂ : ((((stored.filter hasEmbedding).map
        (fun c => (c, cosineSimilarity q (c.embedding.getD [])))).insertionSort
          (fun p p' => scoreGe p.2 p'.2 = true)).filter
            ((fun c => decide (simKey (chunkScore q c) = some v)) ∘ Prod.fst)) =
        (((stored.filter hasEmbedding).map
        (fun c => (c, cosineSimilarity q (c.embedding.getD [])))).filter
            ((fun c => decide (simKey (chunkScore q c) = some v)) ∘ Prod.fst)) := by
      refine filter_insertionSort _ _ _ ?_
      intro x hx y hy hCx hrxy
      rcases hmemScored x hx with ⟨hx1, hx2⟩
      rcases hmemScored y hy with ⟨hy1, hy2⟩
      rcases hfiltered x.1 hx1 with ⟨d1, q1, hfin1, hpos1⟩
      rcases hfiltered y.1 hy1 with ⟨d2, q2, hfin2, hpos2⟩
      simp only [Function.comp, decide_eq_true_eq] at hCx ⊢
      rw [hx2, hy2, hfin1, hfin2, scoreGe_fin_iff] at hrxy
      push_neg at hrxy
      rw [hfin2, simKey]
      rw [hfin1, simKey] at hCx
      simp only [Option.some.injEq] at hCx
      simp only [decide_eq_false_iff_not, Option.some.injEq]
      intro hvy
      rw [hCx, hvy] at hrxy
      exact absurd le_rfl (not_le.mpr hrxy)
    rw [hstep₂, List.filter_map] at hstep₁
    have hmf := hstep₁.map Prod.fst
    rw [List.map_map,
      show (Prod.fst ∘ fun c : Chunk =>
        (c, cosineSimilarity q (c.embedding.getD []))) = id from rfl,
      List.map_id] at hmf
    simpa [Function.comp] using hmf
  · intro c hcmem c' hcmem'
    rcases hfiltered c hcmem with ⟨d1, q1, hfin1, hpos1⟩
    rcases hfiltered c' hcmem' with ⟨d2, q2, hfin2, hpos2⟩
    rw [hfin1, hfin2, simKey, simKey, simRe_of_fin q c d1 q1 hfin1,
      simRe_of_fin q c' d2 q2 hfin2]
    simp only [Option.some.injEq]
    exact simKey_eq_iff d1 q1 d2 q2 hpos1 hpos2

/-- A concrete stored chunk used to witness the search theorem. -/
def sampleChunk : Chunk := ⟨"c1", none, "row text", some [1], none⟩

theorem searchChunksByEmbedding_spec_witness :
    (searchChunksByEmbedding [sampleChunk] [1] 5).length ≤ 5 ∧
    (∀ c ∈ searchChunksByEmbedding [sampleChunk] [1] 5,
      ∃ e, c.embedding = some e ∧ e ≠ []) ∧
    (searchChunksByEmbedding [sampleChunk] [1] 5).Pairwise
      (fun c c' => simRe [1] c' ≤ simRe [1] c) ∧
    (∀ v : ℚ,
      (searchChunksByEmbedding [sampleChunk] [1] 5).filter
          (fun c => decide (simKey (chunkScore [1] c) = some v)) <+:
        ([sampleChunk].filter hasEmbedding).filter
          (fun c => decide (simKey (chunkScore [1] c) = some v))) ∧
    (∀ c ∈ [sampleChunk].filter hasEmbedding,
      ∀ c' ∈ [sampleChunk].filter hasEmbedding,
      (simKey (chunkScore [1] c) = simKey (chunkScore [1] c') ↔
        simRe [1] c = simRe [1] c')) :=
  searchChunksByEmbedding_spec [sampleChunk] [1] 5 (by simp [sumSq])
    (by
      intro c hcm e he
      have hc1 : c = sampleChunk := by simpa using hcm
      subst hc1
      simp only [sampleChunk] at he
      injection he with he'
      subst he'
      exact ⟨by simp, by simp [sumSq]⟩)

/-! ### DataProcessor.processCSV (server/services/dataProcessor.ts, lines 31-81)

The stream parsing done by the external `csv-parser` library is outside the
repository; `processCSV` is modelled on the list of parsed rows it delivers
(each row an ordered mapping of column name to raw string value, as in
`Object.entries`). -/

/-- A parsed CSV row: ordered column/value pairs. -/
abbrev Row := List (String × String)

/-- `Object.entries(row).map(([key, value]) => key + ": " + value).join(", ")`. -/
def rowContent (row : Row) : String :=
  String.intercalate ", " (row.map (fun kv => kv.1 ++ ": " ++ kv.2))

/-- Metadata attached to a CSV-derived chunk. -/
inductive CsvMeta where
  | row (rowIndex : Nat) (originalData : Row)
  | summary (headers : List String) (totalRows : Nat)
deriving DecidableEq

structure CsvChunk where
  content : String
  metadata : CsvMeta
deriving DecidableEq

/-- `Object.keys(rows[0])` (empty when there are no rows). -/
def csvHeaders (rows : List Row) : List String := (rows.headD []).map Prod.fst

/-- The one summary chunk content:
`CSV Dataset with columns: <headers>. Total rows: <n>`. -/
def csvSummaryContent (rows : List Row) : String :=
  "CSV Dataset with columns: " ++ String.intercalate ", " (csvHeaders rows) ++
    ". Total rows: " ++ toString rows.length

/-- `DataProcessor.processCSV` after parsing: one chunk per row, plus one
summary chunk when `rows.length > 0`. -/
def processCSV (rows : List Row) : List CsvChunk :=
  (rows.enum.map (fun p => ⟨rowContent p.2, CsvMeta.row p.1 p.2⟩)) ++
    (if 0 < rows.length then
      [⟨csvSummaryContent rows, CsvMeta.summary (csvHeaders rows) rows.length⟩]
    else [])

/-- C5 (amended): for every CSV input with `N ≥ 1` parsed rows, `processCSV`
produces exactly `N + 1` chunks — one per row, whose content is the flattened
`"column: value, ..."` string, followed by exactly one summary chunk naming
the columns and the row count.  (With `N = 0` parsed rows it produces no
chunks at all, hence also no summary chunk.) -/
theorem processCSV_spec (rows : List Row) (h : rows ≠ []) :
    (processCSV rows).length = rows.length + 1 ∧
    (processCSV rows).map (fun c => c.content) =
      rows.map rowContent ++ [csvSummaryContent rows] := by
  have hl : 0 < rows.length := List.length_pos.mpr h
  constructor
  · simp [processCSV, hl]
  · simp only [processCSV, if_pos hl, List.map_append, List.map_map, List.map_cons,
      List.map_nil, List.append_cancel_right_eq]
    rw [show ((fun c : CsvChunk => c.content) ∘
        fun p : Nat × Row => (⟨rowContent p.2, CsvMeta.row p.1 p.2⟩ : CsvChunk)) =
      (rowContent ∘ Prod.snd) from rfl]
    rw [← List.map_map, List.enum_map_snd]

theorem processCSV_spec_witness :
    (processCSV [[("a", "1")]]).length = [[("a", "1")]].length + 1 ∧
    (processCSV [[("a", "1")]]).map (fun c => c.content) =
      [[("a", "1")]].map rowContent ++ [csvSummaryContent [[("a", "1")]]] :=
  processCSV_spec [[("a", "1")]] (by simp)

/-- C5 counterexample: a CSV input with `N = 0` parsed rows produces `0`
chunks, not `N + 1 = 1`; in particular no summary chunk is emitted. -/
theorem processCSV_empty_counterexample :
    ¬ ((processCSV []).length = 0 + 1) := by
  simp [processCSV]

/-! ### DataProcessor.chunkText (server/services/dataProcessor.ts, lines 109-152)

Free text is modelled as `List Char`.  The JS split `text.split(/[.!?]+/)`
splits at every separator character and the subsequent
`.filter(s => s.trim().length > 0)` discards the empty and whitespace-only
fragments, so splitting at single separators followed by the same filter is
an equivalent model.  `slice(-overlap)` keeps the whole string both when
`overlap = 0` (JS `slice(-0) = slice(0)`) and when `overlap` exceeds the
length. -/

/-- A character matched by the sentence-separator class `[.!?]`. -/
def isSentenceSep (c : Char) : Bool := c == '.' || c == '!' || c == '?'

/-- Split at every separator character, keeping (possibly empty) fragments. -/
def splitSeps : List Char → List (List Char)
  | [] => [[]]
  | c :: cs =>
    if isSentenceSep c then [] :: splitSeps cs
    else
      match splitSeps cs with
      | [] => [[c]]
      | f :: fs => (c :: f) :: fs

/-- JS `trimStart()` on a character list. -/
def trimLeftChars (cs : List Char) : List Char := cs.dropWhile Char.isWhitespace

/-- JS `trimEnd()` on a character list. -/
def trimRightChars (cs : List Char) : List Char :=
  (cs.reverse.dropWhile Char.isWhitespace).reverse

/-- JS `trim()` on a character list. -/
def trimChars (cs : List Char) : List Char := trimRightChars (trimLeftChars cs)

/-- `text.split(/[.!?]+/).filter(s => s.trim().length > 0)`. -/
def sentencesOf (text : List Char) : List (List Char) :=
  (splitSeps text).filter (fun s => 0 < (trimChars s).length)

/-- JS `s.slice(-n)`: the last `n` characters (the whole string when `n = 0`,
since `slice(-0) = slice(0)`, or when `n` exceeds the length). -/
def jsSliceLast (cs : List Char) (n : Nat) : List Char :=
  if n = 0 then cs else cs.drop (cs.length - n)

/-- A produced text chunk: trimmed content plus the `chunkIndex` and (untrimmed)
`length` metadata fields. -/
structure TxtChunk where
  content : List Char
  chunkIndex : Nat
  rawLength : Nat
deriving DecidableEq

/-- Loop state of `chunkText`: emitted chunks, `currentChunk`, `currentLength`. -/
structure ChunkAcc where
  chunks : List TxtChunk
  currentChunk : List Char
  currentLength : Nat
deriving DecidableEq

/-- One iteration of the `for (const sentence of sentences)` loop. -/
def chunkStep (chunkSize overlap : Nat) (st : ChunkAcc) (sentence : List Char) :
    ChunkAcc :=
  if chunkSize < st.currentLength + sentence.length ∧ 0 < st.currentChunk.length then
    ⟨st.chunks ++ [⟨trimChars st.currentChunk, st.chunks.length, st.currentChunk.length⟩],
     jsSliceLast st.currentChunk overlap ++ sentence,
     (jsSliceLast st.currentChunk overlap).length + sentence.length⟩
  else
    ⟨st.chunks, st.currentChunk ++ sentence ++ ['.', ' '],
     st.currentLength + sentence.length⟩

/-- The trailing flush after the loop: push the last chunk if its trimmed
content is non-empty. -/
def finishChunks (st : ChunkAcc) : List TxtChunk :=
  if 0 < (trimChars st.currentChunk).length then
    st.chunks ++ [⟨trimChars st.currentChunk, st.chunks.length, st.currentChunk.length⟩]
  else st.chunks

/-- `DataProcessor.chunkText(text, metadata?, chunkSize, overlap)` (defaults
`chunkSize = 1000`, `overlap = 200`). -/
def chunkText (text : List Char) (chunkSize overlap : Nat) : List TxtChunk :=
  finishChunks ((sentencesOf text).foldl (chunkStep chunkSize overlap) ⟨[], [], 0⟩)

/-- The accumulated text of a run of sentences that never overflows the chunk
size: each sentence followed by `". "`. -/
def joinSentences (ss : List (List Char)) : List Char :=
  (ss.map (fun s => s ++ ['.', ' '])).flatten

/-- C6 counterexample: the input `"hi"` (non-empty, far shorter than the chunk
size) yields one chunk whose content is `"hi."` — the reconstruction appends a
period, so the content is not a trimmed form of the input; and the non-empty
all-separator input `"!!!"` yields zero chunks rather than one. -/
theorem chunkText_trim_counterexample :
    (chunkText "hi".toList 1000 200).map (fun c => c.content) = ["hi.".toList] ∧
    "hi.".toList ≠ trimChars "hi".toList ∧
    (chunkText "!!!".toList 1000 200).length = 0 := by
  refine ⟨by decide, by decide, by decide⟩

set_option maxRecDepth 10000 in
/-- C7 counterexample, at the default `chunkSize = 1000`, `overlap = 200`: for
the input of 600 `a`s, a period, and 600 `b`s, the first chunk's content is
`a^600 ++ "."` but the second chunk starts with `a^198 ++ ". "`, which is not
the trailing 200 characters `a^199 ++ "."` of the first chunk's content (the
overlap is sliced from the untrimmed accumulator, which still ends in
`". "`). -/
theorem chunkText_overlap_counterexample :
    (chunkText (List.replicate 600 'a' ++ '.' :: List.replicate 600 'b') 1000 200).map
        (fun c => c.content) =
      [List.replicate 600 'a' ++ ['.'],
       List.replicate 198 'a' ++ '.' :: ' ' :: List.replicate 600 'b'] ∧
    ¬ (jsSliceLast (List.replicate 600 'a' ++ ['.']) 200 <+:
        (List.replicate 198 'a' ++ '.' :: ' ' :: List.replicate 600 'b')) := by
  constructor
  · decide
  · decide

theorem splitSeps_sum_length (text : List Char) :
    ((splitSeps text).map List.length).sum ≤ text.length := by
  induction text with
  | nil => simp [splitSeps]
  | cons c cs ih =>
    rw [splitSeps]
    by_cases h : isSentenceSep c = true
    · rw [if_pos h]
      simp only [List.map_cons, List.sum_cons, List.length_nil, List.length_cons]
      omega
    · rw [if_neg h]
      cases hs : splitSeps cs with
      | nil => simp
      | cons f fs =>
        rw [hs] at ih
        simp only [List.map_cons, List.sum_cons, List.length_cons] at ih ⊢
        omega

theorem filter_sum_length_le (p : List Char → Bool) (ss : List (List Char)) :
    ((ss.filter p).map List.length).sum ≤ (ss.map List.length).sum := by
  induction ss with
  | nil => simp
  | cons s t ih =>
    rw [List.filter_cons]
    split
    · simp only [List.map_cons, List.sum_cons]
      omega
    · simp only [List.map_cons, List.sum_cons]
      omega

theorem foldl_no_split (chunkSize overlap : Nat) (ss : List (List Char))
    (chunks : List TxtChunk) (cur : List Char) (curLen : Nat)
    (h : curLen + ((ss.map List.length).sum) ≤ chunkSize) :
    ss.foldl (chunkStep chunkSize overlap) ⟨chunks, cur, curLen⟩ =
      ⟨chunks, cur ++ joinSentences ss, curLen + ((ss.map List.length).sum)⟩ := by
  induction ss generalizing cur curLen with
  | nil => simp [joinSentences]
  | cons s t ih =>
    rw [List.foldl_cons]
    have hcond : ¬ (chunkSize < curLen + s.length ∧ 0 < cur.length) := by
      rintro ⟨h1, _⟩
      simp only [List.map_cons, List.sum_cons] at h
      omega
    have hstep : chunkStep chunkSize overlap ⟨chunks, cur, curLen⟩ s =
        ⟨chunks, cur ++ s ++ ['.', ' '], curLen + s.length⟩ := by
      unfold chunkStep
      rw [if_neg hcond]
    rw [hstep, ih (cur ++ s ++ ['.', ' ']) (curLen + s.length) (by
      simp only [List.map_cons, List.sum_cons] at h
      omega)]
    have e1 : (cur ++ s ++ ['.', ' ']) ++ joinSentences t =
        cur ++ joinSentences (s :: t) := by
      simp [joinSentences, List.append_assoc]
    have e2 : curLen + s.length + ((t.map List.length).sum) =
        curLen + (((s :: t).map List.length).sum) := by
      simp only [List.map_cons, List.sum_cons]
      omega
    rw [e1, e2]

theorem mem_nonws_of_trimChars_pos (l : List Char) (h : 0 < (trimChars l).length) :
    ∃ c ∈ l, c.isWhitespace = false := by
  by_contra hall
  push_neg at hall
  have hall' : ∀ c ∈ l, c.isWhitespace = true := by
    intro c hc
    cases hcw : c.isWhitespace with
    | false => exact absurd hcw (by simpa using hall c hc)
    | true => rfl
  have h1 : trimLeftChars l = [] := List.dropWhile_eq_nil_iff.mpr hall'
  rw [trimChars, h1] at h
  simp [trimRightChars] at h

theorem trimChars_pos_of_mem_nonws (l : List Char)
    (h : ∃ c ∈ l, c.isWhitespace = false) : 0 < (trimChars l).length := by
  rcases h with ⟨c, hc, hcw⟩
  rw [List.length_pos]
  intro hnil
  have h1 : trimLeftChars l ≠ [] := by
    intro h1
    have := List.dropWhile_eq_nil_iff.mp h1 c hc
    rw [hcw] at this
    exact Bool.false_ne_true this
  have hsplit : l.takeWhile Char.isWhitespace ++ l.dropWhile Char.isWhitespace = l :=
    List.takeWhile_append_dropWhile Char.isWhitespace l
  have hc2 : c ∈ trimLeftChars l ∨ c ∈ l.takeWhile Char.isWhitespace := by
    rcases List.mem_append.mp (by rw [hsplit]; exact hc :
        c ∈ l.takeWhile Char.isWhitespace ++ l.dropWhile Char.isWhitespace) with h2 | h2
    · exact Or.inr h2
    · exact Or.inl h2
  have hc3 : c ∈ trimLeftChars l := by
    rcases hc2 with h2 | h2
    · exact h2
    · have := List.mem_takeWhile_imp h2
      rw [hcw] at this
      exact absurd this Bool.false_ne_true
  rw [trimChars, trimRightChars] at hnil
  have h4 := List.reverse_eq_nil_iff.mp hnil
  have h5 := List.dropWhile_eq_nil_iff.mp h4 c (List.mem_reverse.mpr hc3)
  rw [hcw] at h5
  exact Bool.false_ne_true h5

/-- C6 (amended): for every input shorter than the chunk size, `chunkText`
returns at most one chunk.  It returns no chunk when no sentence segment
survives the whitespace filter (e.g. on all-separator input), and otherwise
exactly one chunk, whose content is the trim of the rejoined sentence
reconstruction (each segment followed by `". "`) — which in general differs
from the trimmed input, since separators are normalised to periods and a
final period is appended. -/
theorem chunkText_short_spec (text : List Char) (chunkSize overlap : Nat)
    (h : text.length < chunkSize) :
    (chunkText text chunkSize overlap).length ≤ 1 ∧
    (sentencesOf text = [] → chunkText text chunkSize overlap = []) ∧
    (sentencesOf text ≠ [] →
      chunkText text chunkSize overlap =
        [⟨trimChars (joinSentences (sentencesOf text)), 0,
          (joinSentences (sentencesOf text)).length⟩]) := by
  have hsum : ((sentencesOf text).map List.length).sum ≤ text.length :=
    le_trans (filter_sum_length_le _ _) (splitSeps_sum_length text)
  have hfold := foldl_no_split chunkSize overlap (sentencesOf text) [] [] 0
    (by omega)
  have hct : chunkText text chunkSize overlap =
      finishChunks ⟨[], joinSentences (sentencesOf text),
        ((sentencesOf text).map List.length).sum⟩ := by
    unfold chunkText
    rw [hfold]
    simp
  by_cases hss : sentencesOf text = []
  · have hfin : chunkText text chunkSize overlap = [] := by
      rw [hct, hss]
      rfl
    exact ⟨by rw [hfin]; simp, fun _ => hfin, fun hne => absurd hss hne⟩
  · obtain ⟨s, t, hst⟩ : ∃ s t, sentencesOf text = s :: t := by
      cases hsc : sentencesOf text with
      | nil => exact absurd hsc hss
      | cons a b => exact ⟨a, b, rfl⟩
    have hdot : ('.' : Char) ∈ joinSentences (sentencesOf text) := by
      rw [hst]
      simp [joinSentences]
    have hpos := trimChars_pos_of_mem_nonws (joinSentences (sentencesOf text))
      ⟨'.', hdot, by decide⟩
    have hite : finishChunks ⟨[], joinSentences (sentencesOf text),
        ((sentencesOf text).map List.length).sum⟩ =
        if 0 < (trimChars (joinSentences (sentencesOf text))).length then
          [⟨trimChars (joinSentences (sentencesOf text)), 0,
            (joinSentences (sentencesOf text)).length⟩]
        else [] := rfl
    have hfin : chunkText text chunkSize overlap =
        [⟨trimChars (joinSentences (sentencesOf text)), 0,
          (joinSentences (sentencesOf text)).length⟩] := by
      rw [hct, hite, if_pos hpos]
    exact ⟨by rw [hfin]; simp, fun he => absurd he hss, fun _ => hfin⟩

theorem chunkText_short_spec_witness :
    (chunkText "Hello world.".toList 1000 200).length ≤ 1 ∧
    (sentencesOf "Hello world.".toList = [] →
      chunkText "Hello world.".toList 1000 200 = []) ∧
    (sentencesOf "Hello world.".toList ≠ [] →
      chunkText "Hello world.".toList 1000 200 =
        [⟨trimChars (joinSentences (sentencesOf "Hello world.".toList)), 0,
          (joinSentences (sentencesOf "Hello world.".toList)).length⟩]) :=
  chunkText_short_spec "Hello world.".toList 1000 200 (by decide)

theorem trimRightChars_prefix (l : List Char) : trimRightChars l <+: l := by
  unfold trimRightChars
  have h : l.reverse.dropWhile Char.isWhitespace <:+ l.reverse :=
    List.dropWhile_suffix _
  have h2 := List.reverse_prefix.mpr h
  rwa [List.reverse_reverse] at h2

theorem trimChars_prefix_trimLeft (l : List Char) :
    trimChars l <+: trimLeftChars l := trimRightChars_prefix _

theorem dropWhile_ne_nil_of_mem_nonws {a : List Char}
    (ha : ∃ c ∈ a, c.isWhitespace = false) :
    a.dropWhile Char.isWhitespace ≠ [] := by
  rcases ha with ⟨c, hc, hcw⟩
  intro hnil
  have := List.dropWhile_eq_nil_iff.mp hnil c hc
  rw [hcw] at this
  exact Bool.false_ne_true this

theorem trimLeftChars_append_nonws (a b : List Char)
    (ha : ∃ c ∈ a, c.isWhitespace = false) :
    trimLeftChars (a ++ b) = trimLeftChars a ++ b := by
  unfold trimLeftChars
  rw [List.dropWhile_append,
    if_neg (by
      rw [Bool.not_eq_true, List.isEmpty_eq_false]
      exact dropWhile_ne_nil_of_mem_nonws ha)]

theorem trimRightChars_append_nonws (a b : List Char)
    (hb : ∃ c ∈ b, c.isWhitespace = false) :
    trimRightChars (a ++ b) = a ++ trimRightChars b := by
  unfold trimRightChars
  rw [List.reverse_append, List.dropWhile_append,
    if_neg (by
      rw [Bool.not_eq_true, List.isEmpty_eq_false]
      apply dropWhile_ne_nil_of_mem_nonws
      rcases hb with ⟨c, hc, hcw⟩
      exact ⟨c, List.mem_reverse.mpr hc, hcw⟩),
    List.reverse_append, List.reverse_reverse]

theorem trimChars_append_nonws (a b : List Char)
    (ha : ∃ c ∈ a, c.isWhitespace = false)
    (hb : ∃ c ∈ b, c.isWhitespace = false) :
    trimChars (a ++ b) = trimLeftChars a ++ trimRightChars b := by
  unfold trimChars
  rw [trimLeftChars_append_nonws a b ha,
    trimRightChars_append_nonws (trimLeftChars a) b hb]

theorem prefix_trim_append (p cur x : List Char)
    (hx : ∃ c ∈ x, c.isWhitespace = false)
    (h : p <+: trimChars cur) : p <+: trimChars (cur ++ x) := by
  by_cases hcur : ∃ c ∈ cur, c.isWhitespace = false
  · rw [trimChars_append_nonws cur x hcur hx]
    exact (h.trans (trimChars_prefix_trimLeft cur)).trans
      (List.prefix_append _ _)
  · have hp : p = [] := by
      push_neg at hcur
      have hall : ∀ c ∈ cur, Char.isWhitespace c = true := by
        intro c hc
        cases hcw : c.isWhitespace with
        | false => exact absurd hcw (by simpa using hcur c hc)
        | true => rfl
      have h1 : trimLeftChars cur = [] := List.dropWhile_eq_nil_iff.mpr hall
      have h2 : trimChars cur = [] := by
        rw [trimChars, h1]
        rfl
      rw [h2] at h
      exact List.prefix_nil.mp h
    rw [hp]
    exact List.nil_prefix

theorem seed_prefix (ov s : List Char) (hs : ∃ c ∈ s, c.isWhitespace = false) :
    trimLeftChars ov <+: trimChars (ov ++ s) := by
  by_cases hov : ∃ c ∈ ov, c.isWhitespace = false
  · rw [trimChars_append_nonws ov s hov hs]
    exact List.prefix_append _ _
  · have h1 : trimLeftChars ov = [] := by
      push_neg at hov
      refine List.dropWhile_eq_nil_iff.mpr ?_
      intro c hc
      cases hcw : c.isWhitespace with
      | false => exact absurd hcw (by simpa using hov c hc)
      | true => rfl
    rw [h1]
    exact List.nil_prefix

/-- The (amended) overlap relation between consecutive chunks: the successor
begins with the left-trim of the trailing `overlap` characters of the
pre-trim accumulated text `U` of its predecessor (whose stored content is
`trim U`). -/
def overlapLink (overlap : Nat) (c₁ c₂ : TxtChunk) : Prop :=
  ∃ U : List Char, c₁.content = trimChars U ∧
    trimLeftChars (jsSliceLast U overlap) <+: c₂.content

/-- Loop invariant of `chunkText`: the emitted chunks are chained by
`overlapLink`, and the last emitted chunk is linked to the text accumulating
in `currentChunk`. -/
def chunkInv (ov : Nat) (st : ChunkAcc) : Prop :=
  st.chunks.Chain' (overlapLink ov) ∧
  ∀ lc, st.chunks.getLast? = some lc →
    ∃ U, lc.content = trimChars U ∧
      trimLeftChars (jsSliceLast U ov) <+: trimChars st.currentChunk

theorem chunkStep_inv (cs ov : Nat) (st : ChunkAcc) (s : List Char)
    (hs : ∃ c ∈ s, c.isWhitespace = false) (hst : chunkInv ov st) :
    chunkInv ov (chunkStep cs ov st s) := by
  unfold chunkStep
  by_cases hcond : cs < st.currentLength + s.length ∧ 0 < st.currentChunk.length
  · rw [if_pos hcond]
    constructor
    · rw [List.chain'_append]
      refine ⟨hst.1, List.chain'_singleton _, ?_⟩
      intro x hx y hy
      simp only [List.head?_cons, Option.mem_def, Option.some.injEq] at hy
      subst hy
      rcases hst.2 x hx with ⟨U, hU1, hU2⟩
      exact ⟨U, hU1, hU2⟩
    · intro lc hlc
      rw [List.getLast?_concat] at hlc
      injection hlc with hlc'
      subst hlc'
      exact ⟨st.currentChunk, rfl, seed_prefix _ s hs⟩
  · rw [if_neg hcond]
    refine ⟨hst.1, ?_⟩
    intro lc hlc
    rcases hst.2 lc hlc with ⟨U, hU1, hU2⟩
    refine ⟨U, hU1, ?_⟩
    have hx : ∃ c ∈ s ++ ['.', ' '], c.isWhitespace = false :=
      ⟨'.', by simp, by decide⟩
    have h := prefix_trim_append _ st.currentChunk (s ++ ['.', ' ']) hx hU2
    rwa [← List.append_assoc] at h

theorem foldl_chunkInv (cs ov : Nat) (ss : List (List Char))
    (hss : ∀ s ∈ ss, ∃ c ∈ s, c.isWhitespace = false) (st : ChunkAcc)
    (hst : chunkInv ov st) :
    chunkInv ov (ss.foldl (chunkStep cs ov) st) := by
  induction ss generalizing st with
  | nil => exact hst
  | cons s t ih =>
    rw [List.foldl_cons]
    exact ih (fun x hx => hss x (by simp [hx])) _
      (chunkStep_inv cs ov st s (hss s (by simp)) hst)

theorem finishChunks_chain (ov : Nat) (st : ChunkAcc) (hst : chunkInv ov st) :
    (finishChunks st).Chain' (overlapLink ov) := by
  unfold finishChunks
  by_cases h : 0 < (trimChars st.currentChunk).length
  · rw [if_pos h, List.chain'_append]
    refine ⟨hst.1, List.chain'_singleton _, ?_⟩
    intro x hx y hy
    simp only [List.head?_cons, Option.mem_def, Option.some.injEq] at hy
    subst hy
    rcases hst.2 x hx with ⟨U, hU1, hU2⟩
    exact ⟨U, hU1, hU2⟩
  · rw [if_neg h]
    exact hst.1

/-- C7 (amended): in every `chunkText` output, each chunk after the first
begins with the left-trim of the trailing `overlap` characters of the
untrimmed text accumulated for its predecessor — the predecessor's stored
content being the trim of that accumulated text.  (It is from the untrimmed
accumulator, not from the stored content, that the source slices the
overlap.) -/
theorem chunkText_overlap_spec (text : List Char) (chunkSize overlap : Nat) :
    (chunkText text chunkSize overlap).Chain' (overlapLink overlap) := by
  apply finishChunks_chain
  apply foldl_chunkInv
  · intro s hs
    refine mem_nonws_of_trimChars_pos s ?_
    rcases List.mem_filter.mp hs with ⟨_, hp⟩
    simpa using hp
  · exact ⟨List.chain'_nil, fun lc hlc => by simp at hlc⟩

/-! ### DataProcessor computation engine (server/services/dataProcessor.ts,
lines 154-229)

JS numbers are modelled as exact fractions `JsNum` (integer numerator over a
positive natural denominator, not normalised, so that every operation is a
plain `Int`/`Nat` computation the kernel can evaluate); floating-point
rounding is idealised away.  `parseFloat` is modelled on the grammar its
inputs use here — optional sign, decimal digits, optional fraction; exponent
notation and special values are out of scope and unreachable from the
modelled data. -/

/-- An exact JS number: `num / den` with `den` positive by construction. -/
structure JsNum where
  num : Int
  den : Nat
deriving DecidableEq

/-- JS `+` on numbers. -/
def JsNum.add (x y : JsNum) : JsNum :=
  ⟨x.num * y.den + y.num * x.den, x.den * y.den⟩

/-- JS `/` by a positive integer count. -/
def JsNum.divNat (x : JsNum) (n : Nat) : JsNum := ⟨x.num, x.den * n⟩

def digitsToNat (ds : List Char) : Nat :=
  ds.foldl (fun n c => 10 * n + (c.toNat - 48)) 0

/-- JS `parseFloat` on the inputs used by the computation engine: skip leading
whitespace, optional sign, decimal digits, optional `.` and fraction digits,
ignoring any trailing garbage; `none` when no digits are consumed (NaN). -/
def parseJsFloat (s : String) : Option JsNum :=
  let cs := s.toList.dropWhile Char.isWhitespace
  let body : Int × List Char :=
    match cs with
    | c :: rest =>
      if c == '-' then (-1, rest) else if c == '+' then (1, rest) else (1, cs)
    | [] => (1, [])
  let intDigits := body.2.takeWhile Char.isDigit
  let afterInt := body.2.dropWhile Char.isDigit
  let fracDigits : List Char :=
    match afterInt with
    | c :: rest => if c == '.' then rest.takeWhile Char.isDigit else []
    | [] => []
  if intDigits.isEmpty && fracDigits.isEmpty then none
  else
    some ⟨body.1 * ((digitsToNat intDigits) * 10 ^ fracDigits.length +
            digitsToNat fracDigits),
          10 ^ fracDigits.length⟩

/-- JS `x.toFixed(2)`: sign, then the nearest 2-decimal representation of the
magnitude, ties rounding up (ECMA: pick the larger `n`). -/
def toFixed2 (x : JsNum) : String :=
  let p : Nat := x.num.natAbs
  let n : Nat := (200 * p + x.den) / (2 * x.den)
  let intPart := n / 100
  let fracPart := n % 100
  (if x.num < 0 then "-" else "") ++ toString intPart ++ "." ++
    (if fracPart < 10 then "0" ++ toString fracPart else toString fracPart)

/-- The matches of the global regex `/\d{4}/g` as numbers (`parseInt` of each
four-digit match; after a match scanning resumes past it). -/
def extractYears : List Char → List Nat
  | a :: b :: c :: d :: rest =>
    if a.isDigit && b.isDigit && c.isDigit && d.isDigit then
      digitsToNat [a, b, c, d] :: extractYears rest
    else
      extractYears (b :: c :: d :: rest)
  | _ => []

/-- `charAt(0).toUpperCase() + slice(1)`. -/
def capitalizeStr (s : String) : String :=
  match s.toList with
  | [] => ""
  | c :: cs => ⟨c.toUpper :: cs⟩

/-- `Math.min(...years)` on a non-empty list (`0` on the unreachable empty
case). -/
def listMinNat : List Nat → Nat
  | [] => 0
  | y :: ys => ys.foldl min y

/-- `Math.max(...years)` on a non-empty list. -/
def listMaxNat : List Nat → Nat
  | [] => 0
  | y :: ys => ys.foldl max y

def crops : List String :=
  ["rice", "wheat", "maize", "jowar", "bajra", "ragi", "cotton", "sugarcane"]

def states : List String :=
  ["andhra pradesh", "assam", "kerala", "manipur", "maharashtra",
   "madhya pradesh", "punjab", "tamil nadu", "orissa", "karnataka", "gujarat"]

def computationKeywords : List String :=
  ["sum", "total", "average", "mean", "calculate", "computation",
   "between", "from", "till", "combined", "aggregate", "statistics"]

/-- `DataProcessor.detectComputationalQuery`. -/
def detectComputationalQuery (query : String) : Bool :=
  computationKeywords.any (fun keyword => includesStr (toLowerStr query) keyword)

/-- `DataProcessor.performAgriculturalComputation(query, csvData)`.  The body
never throws in the model (its own `try`/`catch` is dead code here). -/
def performAgriculturalComputation (query : String) (csvData : List Row) :
    String :=
  let queryLower := toLowerStr query
  let crop? := crops.find? (fun c => includesStr queryLower c)
  let state? := states.find? (fun s => includesStr queryLower s)
  let years := extractYears query.toList
  match crop? with
  | none => "Please specify a crop for computation (e.g., rice, wheat, maize)."
  | some crop =>
    let filteredData := csvData.filter (fun row =>
      let rowText := toLowerStr (String.intercalate " " (row.map Prod.snd))
      includesStr rowText crop &&
        (match state? with
         | none => true
         | some st => includesStr rowText st))
    if filteredData.length = 0 then
      "No data found for " ++ crop ++
        (match state? with | none => "" | some st => " in " ++ st) ++ "."
    else
      let values := filteredData.flatMap (fun row =>
        row.filterMap (fun kv =>
          if years.length = 0 ||
              years.any (fun y => includesStr kv.1 (toString y)) then
            parseJsFloat kv.2
          else none))
      if values.length = 0 then "No numeric data found for computation."
      else
        let total := values.foldl JsNum.add ⟨0, 1⟩
        let average := JsNum.divNat total values.length
        let yearRange :=
          if 0 < years.length then
            toString (listMinNat years) ++ "-" ++ toString (listMaxNat years)
          else "available years"
        let stateText :=
          match state? with
          | none => ""
          | some st => " in " ++ capitalizeStr st
        "Computation Results for " ++ capitalizeStr crop ++ stateText ++
          " (" ++ yearRange ++ "):\n" ++
          "Total: " ++ toFixed2 total ++ "\n" ++
          "Average: " ++ toFixed2 average ++ "\n" ++
          "Data points: " ++ toString values.length

set_option maxRecDepth 10000 in
/-- C2 counterexample: on the claim's query and row, the computation does not
report total `220.00`, average `110.00`, or `2` data points — the `2021`
column is skipped because its name contains neither of the extracted years
`2020` and `2022`. -/
theorem performAgriculturalComputation_counterexample :
    includesStr (performAgriculturalComputation
      "What is the total rice production in Punjab from 2020 to 2022?"
      [[("crop", "rice"), ("state", "punjab"), ("2020", "100"), ("2021", "120")]])
      "Total: 220.00" = false ∧
    includesStr (performAgriculturalComputation
      "What is the total rice production in Punjab from 2020 to 2022?"
      [[("crop", "rice"), ("state", "punjab"), ("2020", "100"), ("2021", "120")]])
      "Average: 110.00" = false ∧
    includesStr (performAgriculturalComputation
      "What is the total rice production in Punjab from 2020 to 2022?"
      [[("crop", "rice"), ("state", "punjab"), ("2020", "100"), ("2021", "120")]])
      "Data points: 2" = false := by
  refine ⟨by decide, by decide, by decide⟩

set_option maxRecDepth 10000 in
/-- C2 (amended): on that query and row set the computation reports total
`100.00`, average `100.00`, `1` data point, and year range `2020-2022`: the
year extraction collects the literal four-digit matches `2020` and `2022`
(not the spanned range), and only the column named `2020` contains one of
them, so the `2021` value `120` is excluded. -/
theorem performAgriculturalComputation_spec :
    performAgriculturalComputation
      "What is the total rice production in Punjab from 2020 to 2022?"
      [[("crop", "rice"), ("state", "punjab"), ("2020", "100"), ("2021", "120")]] =
      "Computation Results for Rice in Punjab (2020-2022):\n" ++
        "Total: 100.00\n" ++ "Average: 100.00\n" ++ "Data points: 1" := by
  decide

/-! ### RAGPipelineService (server/services/ragPipeline.ts)

The orchestrator's collaborators — the dataset store, the per-file CSV
loader, the vector search (which wraps the embedding call and may throw), and
the Hugging Face generation call — are supplied through a `PipelineEnv`
record; a fallible `await` is an `Except String` value and `try`/`catch` is a
`match` on it. -/

structure Dataset where
  id : String
  name : String
  description : Option String
  fileType : String
  filePath : String
  status : String
deriving DecidableEq

/-- The optional `metadata` of a `RAGResponse`. -/
inductive RespMeta where
  | comp (datasetCount : Nat) (computationType : String) (totalRows : Nat)
  | rag (chunksRetrieved : Nat) (model : String)
deriving DecidableEq

structure RAGResponse where
  answer : String
  sources : List String
  isComputation : Bool
  metadata : Option RespMeta
deriving DecidableEq

structure PipelineEnv where
  datasets : List Dataset
  loadCsvData : String → Except String (List Row)
  searchSimilarChunks : String → Nat → Except String (List Chunk)
  generateResponse : String → String → Except String String

def noCsvAnswer : String :=
  "No CSV datasets available for computation. Please upload agricultural data first."

def cannotLoadAnswer : String :=
  "Unable to load CSV data for computation. Please check your uploaded files."

def insufficientKnowledgeAnswer : String :=
  "I don" ++ aposStr ++ "t have enough information in my knowledge base to " ++
    "answer that question. Please provide more context or upload relevant documents."

/-- `RAGPipelineService.createRAGPrompt(query, context, language)`. -/
def createRAGPrompt (query context language : String) : String :=
  let languageInstruction :=
    if language ≠ "english" then "Please respond in " ++ language ++ ". " else ""
  "You are an expert agricultural assistant with access to agricultural " ++
    "datasets and research documents. \n" ++ languageInstruction ++
    "Use the following context to answer the user" ++ aposStr ++
    "s question clearly and accurately.\n\nContext:\n" ++ context ++
    "\n\nQuestion: " ++ query ++
    "\n\nInstructions:\n- Provide accurate, helpful information based on the " ++
    "context\n- If the context doesn" ++ aposStr ++
    "t contain enough information, say so clearly\n- Focus on practical " ++
    "agricultural advice and data-driven insights\n- Be concise but " ++
    "comprehensive\n- If relevant, mention specific data points or " ++
    "statistics from the context\n\nAnswer:"

/-- JS `trim()` via the character-list model. -/
def trimStr (s : String) : String := ⟨trimChars s.toList⟩

def startsWithStr (s p : String) : Bool := List.isPrefixOf p.toList s.toList

/-- `RAGPipelineService.postProcessResponse`: trim, then strip each unwanted
leading label in turn (re-trimming after each strip). -/
def postProcessResponse (response : String) : String :=
  ["Answer:", "Response:", "A:"].foldl
    (fun cur p =>
      if startsWithStr cur p then trimStr ⟨cur.toList.drop p.toList.length⟩
      else cur)
    (trimStr response)

/-- JS truthiness of an optional string field (absent or empty is falsy). -/
def strTruthy : Option String → Bool
  | none => false
  | some s => s != ""

/-- The per-chunk source label (ragPipeline.ts, lines 119-128): the metadata
`fileName` when truthy; else `"CSV Dataset"` for the `csv_summary`/`csv_row`
types; else the truthy `type`; else `"Unknown source"`. -/
def chunkSource (c : Chunk) : String :=
  match c.metadata with
  | none => "Unknown source"
  | some m =>
    if strTruthy m.fileName then m.fileName.getD ""
    else if m.type == some "csv_summary" || m.type == some "csv_row" then
      "CSV Dataset"
    else if strTruthy m.type then m.type.getD ""
    else "Unknown source"

/-- JS `arr.indexOf(s)` for an element `s` known to occur in `arr` (our only
use); `findIdx` returns the first index of `s`. -/
def jsIndexOf (l : List String) (s : String) : Nat := l.findIdx (fun x => x == s)

/-- The deduplicated source list:
`.map(chunkSource).filter((source, index, arr) => arr.indexOf(source) === index)`. -/
def sourcesOf (chunks : List Chunk) : List String :=
  ((chunks.map chunkSource).enum.filter
    (fun p => jsIndexOf (chunks.map chunkSource) p.2 == p.1)).map Prod.snd

/-- `RAGPipelineService.handleRAGQuery(query, model, language)`.  Failures of
the vector search or of the generation call are not caught here and
propagate to `processQuery`. -/
def handleRAGQuery (query model language : String) (env : PipelineEnv) :
    Except String RAGResponse :=
  match env.searchSimilarChunks query 5 with
  | .error e => .error e
  | .ok relevantChunks =>
    if relevantChunks.length = 0 then
      .ok ⟨insufficientKnowledgeAnswer, [], false, none⟩
    else
      let context := String.intercalate "\n\n"
        (relevantChunks.map (fun c => c.content))
      let prompt := createRAGPrompt query context language
      match env.generateResponse prompt model with
      | .error e => .error e
      | .ok response =>
        .ok ⟨postProcessResponse response, sourcesOf relevantChunks, false,
          some (.rag relevantChunks.length model)⟩

/-- `RAGPipelineService.handleComputationalQuery(query)`: its `try`/`catch`
converts every failure into a textual answer, and each per-dataset CSV load
failure is caught and skipped, so the branch is total. -/
def handleComputationalQuery (query : String) (env : PipelineEnv) : RAGResponse :=
  let csvDatasets := env.datasets.filter
    (fun d => d.fileType == "csv" && d.status == "ready")
  if csvDatasets.length = 0 then
    ⟨noCsvAnswer, [], true, none⟩
  else
    let allCsvData := csvDatasets.flatMap (fun d =>
      match env.loadCsvData d.filePath with
      | .ok rows => rows
      | .error _ => [])
    if allCsvData.length = 0 then
      ⟨cannotLoadAnswer, csvDatasets.map (fun d => d.name), true, none⟩
    else
      ⟨performAgriculturalComputation query allCsvData,
       csvDatasets.map (fun d => d.name), true,
       some (.comp csvDatasets.length "agricultural_statistics"
         allCsvData.length)⟩

/-- `RAGPipelineService.processQuery(query, model, language)`: route by the
classifier; the surrounding `try`/`catch` rethrows any escaped failure as the
single generic `Error("Failed to process query")`. -/
def processQuery (query model language : String) (env : PipelineEnv) :
    Except String RAGResponse :=
  if detectComputationalQuery query then
    .ok (handleComputationalQuery query env)
  else
    match handleRAGQuery query model language env with
    | .ok r => .ok r
    | .error _ => .error "Failed to process query"

/-- An environment whose vector search fails, as when the embedding provider
or the search itself throws. -/
def failingEnv : PipelineEnv :=
  ⟨[], fun _ => Except.error "load error",
   fun _ _ => Except.error "Vector search failed",
   fun _ _ => Except.error "generation error"⟩

/-- C1 counterexample: on a conversational query whose retrieval fails,
`processQuery` does not return a structured answer — it rethrows the generic
`Error("Failed to process query")` to its caller. -/
theorem processQuery_counterexample :
    processQuery "hello" "google/gemma-2b-it" "english" failingEnv =
      Except.error "Failed to process query" := by
  rfl

/-- C1 (amended): `processQuery` never propagates an arbitrary exception —
every failure that escapes the conversational branch (retrieval or
generation) is caught and rethrown as the single generic error
`"Failed to process query"`, so the caller receives either a structured
response or exactly that error; and a query classified as computational
always yields the computational branch's structured response (that branch
catches all its failures internally). -/
theorem processQuery_spec (query model language : String) (env : PipelineEnv) :
    ((∃ r, processQuery query model language env = Except.ok r) ∨
      processQuery query model language env =
        Except.error "Failed to process query") ∧
    (detectComputationalQuery query = true →
      processQuery query model language env =
        Except.ok (handleComputationalQuery query env)) := by
  constructor
  · unfold processQuery
    by_cases h : detectComputationalQuery query = true
    · rw [if_pos h]
      exact Or.inl ⟨_, rfl⟩
    · rw [if_neg h]
      cases handleRAGQuery query model language env with
      | ok r => exact Or.inl ⟨r, rfl⟩
      | error e => exact Or.inr rfl
  · intro h
    unfold processQuery
    rw [if_pos h]

/-- An environment with no data and an always-failing generation call. -/
def trivialEnv : PipelineEnv :=
  ⟨[], fun _ => Except.ok [], fun _ _ => Except.ok [],
   fun _ _ => Except.error "generation error"⟩

theorem processQuery_spec_witness :
    ((∃ r, processQuery "total" "google/gemma-2b-it" "english" trivialEnv =
        Except.ok r) ∨
      processQuery "total" "google/gemma-2b-it" "english" trivialEnv =
        Except.error "Failed to process query") ∧
    processQuery "total" "google/gemma-2b-it" "english" trivialEnv =
      Except.ok (handleComputationalQuery "total" trivialEnv) :=
  ⟨(processQuery_spec "total" "google/gemma-2b-it" "english" trivialEnv).1,
   (processQuery_spec "total" "google/gemma-2b-it" "english" trivialEnv).2
     (by decide)⟩

/-- C8: when retrieval returns zero chunks, the conversational branch returns
the fixed insufficient-knowledge answer with no sources and
`isComputation = false` — for every environment, in particular regardless of
`generateResponse`, so the language model is never consulted. -/
theorem handleRAGQuery_empty_spec (query model language : String)
    (env : PipelineEnv) (h : env.searchSimilarChunks query 5 = Except.ok []) :
    handleRAGQuery query model language env =
      Except.ok ⟨insufficientKnowledgeAnswer, [], false, none⟩ := by
  unfold handleRAGQuery
  rw [h]
  rfl

/-- An environment whose search finds nothing and whose generation call would
fail if it were ever made. -/
def emptySearchEnv : PipelineEnv :=
  ⟨[], fun _ => Except.error "load error", fun _ _ => Except.ok [],
   fun _ _ => Except.error "the model must not be called"⟩

theorem handleRAGQuery_empty_spec_witness :
    handleRAGQuery "What is crop rotation" "google/gemma-2b-it" "english"
        emptySearchEnv =
      Except.ok ⟨insufficientKnowledgeAnswer, [], false, none⟩ :=
  handleRAGQuery_empty_spec "What is crop rotation" "google/gemma-2b-it"
    "english" emptySearchEnv rfl


/-- First-occurrence deduplication as the spec describes it: keep each label
the first time it appears, in order. -/
def dedupFirstAux (seen : List String) : List String → List String
  | [] => []
  | y :: ys =>
    if y ∈ seen then dedupFirstAux seen ys
    else y :: dedupFirstAux (y :: seen) ys

def dedupFirst (l : List String) : List String := dedupFirstAux [] l

/-- The freshness test the `indexOf` filter implements at position `p.1`
holding label `p.2`. -/
def freshAt (seen : List String) (l : List String) (p : Nat × String) : Bool :=
  decide (p.2 ∉ seen) && decide (p.2 ∉ l.take p.1)

theorem findIdx_eq_iff_not_mem_take (l : List String) (i : Nat) (y : String)
    (hg : l.get? i = some y) : jsIndexOf l y = i ↔ y ∉ l.take i := by
  induction l generalizing i with
  | nil => simp at hg
  | cons x xs ih =>
    cases i with
    | zero =>
      simp only [List.get?_cons_zero, Option.some.injEq] at hg
      subst hg
      simp [jsIndexOf, List.findIdx_cons]
    | succ j =>
      simp only [List.get?_cons_succ] at hg
      rw [jsIndexOf, List.findIdx_cons]
      by_cases hxy : x = y
      · subst hxy
        have hmem : x ∈ (x :: xs).take (j + 1) := by
          simp [List.take_succ_cons]
        constructor
        · intro h0
          simp at h0
        · intro hnm
          exact absurd hmem hnm
      · have hbeq : (x == y) = false := by
          simp [hxy]
        simp only [hbeq, cond_false]
        rw [List.take_succ_cons]
        constructor
        · intro h
          have h1 : xs.findIdx (fun z => z == y) = j := by omega
          have h2 := (ih j hg).mp h1
          simp only [List.mem_cons]
          rintro (h3 | h3)
          · exact hxy h3.symm
          · exact h2 h3
        · intro h
          have h2 : y ∉ xs.take j := fun hm => h (by simp [hm])
          have h3 := (ih j hg).mpr h2
          rw [jsIndexOf] at h3
          omega

theorem freshAt_shift_mem (seen : List String) (x : String) (xs : List String)
    (hx : x ∈ seen) :
    freshAt seen (x :: xs) ∘ Prod.map (· + 1) id = freshAt seen xs := by
  funext p
  simp only [Function.comp_apply, freshAt, Prod.map_snd, Prod.map_fst, id,
    List.take_succ_cons]
  by_cases hy : p.2 ∈ seen
  · simp [hy]
  · have hyx : p.2 ≠ x := fun he => hy (he ▸ hx)
    simp [hy, hyx]

theorem freshAt_shift_not_mem (seen : List String) (x : String)
    (xs : List String) (_hx : x ∉ seen) :
    freshAt seen (x :: xs) ∘ Prod.map (· + 1) id = freshAt (x :: seen) xs := by
  funext p
  simp only [Function.comp_apply, freshAt, Prod.map_snd, Prod.map_fst, id,
    List.take_succ_cons]
  rw [← Bool.decide_and, ← Bool.decide_and]
  apply decide_eq_decide.mpr
  simp only [List.mem_cons, not_or]
  tauto

theorem enum_filter_freshAt (l : List String) (seen : List String) :
    ((l.enum.filter (freshAt seen l)).map Prod.snd) = dedupFirstAux seen l := by
  have hsnd : (Prod.snd ∘ Prod.map (· + 1) id : Nat × String → String) =
      Prod.snd := by
    funext p
    rfl
  induction l generalizing seen with
  | nil => rfl
  | cons x xs ih =>
    by_cases hx : x ∈ seen
    · have h1 : ((x :: xs).enum.filter (freshAt seen (x :: xs))).map Prod.snd =
          ((xs.enum.filter (freshAt seen xs)).map Prod.snd) := by
        rw [List.enum_cons', List.filter_cons,
          if_neg (by simp [freshAt, hx]), List.filter_map, List.map_map,
          freshAt_shift_mem seen x xs hx, hsnd]
      rw [h1, ih seen]
      simp [dedupFirstAux, hx]
    · have h1 : ((x :: xs).enum.filter (freshAt seen (x :: xs))).map Prod.snd =
          x :: ((xs.enum.filter (freshAt (x :: seen) xs)).map Prod.snd) := by
        rw [List.enum_cons', List.filter_cons,
          if_pos (by simp [freshAt, hx]), List.map_cons, List.filter_map,
          List.map_map, freshAt_shift_not_mem seen x xs hx, hsnd]
      rw [h1, ih (x :: seen)]
      simp [dedupFirstAux, hx]

theorem sourcesOf_eq_dedupFirst (chunks : List Chunk) :
    sourcesOf chunks = dedupFirst (chunks.map chunkSource) := by
  unfold sourcesOf dedupFirst
  rw [List.filter_congr ?hcong, enum_filter_freshAt]
  case hcong =>
    intro p hp
    have hg : (chunks.map chunkSource).get? p.1 = some p.2 := by
      simpa [List.get?_eq_getElem?] using List.mem_enum_iff_getElem?.mp hp
    have hbeq : (jsIndexOf (chunks.map chunkSource) p.2 == p.1) =
        decide (jsIndexOf (chunks.map chunkSource) p.2 = p.1) := by
      by_cases h : jsIndexOf (chunks.map chunkSource) p.2 = p.1 <;> simp [h]
    rw [hbeq, freshAt]
    simp only [List.not_mem_nil, not_false_iff, decide_True, Bool.true_and]
    exact decide_eq_decide.mpr
      (findIdx_eq_iff_not_mem_take (chunks.map chunkSource) p.1 p.2 hg)

theorem dedupFirstAux_props (l : List String) : ∀ seen : List String,
    (dedupFirstAux seen l).Sublist l ∧ (dedupFirstAux seen l).Nodup ∧
    ∀ y ∈ dedupFirstAux seen l, y ∉ seen := by
  induction l with
  | nil =>
    intro seen
    exact ⟨List.nil_sublist _, List.nodup_nil, by simp [dedupFirstAux]⟩
  | cons x xs ih =>
    intro seen
    by_cases hx : x ∈ seen
    · simp only [dedupFirstAux, if_pos hx]
      have h := ih seen
      exact ⟨h.1.cons x, h.2.1, h.2.2⟩
    · simp only [dedupFirstAux, if_neg hx]
      have h := ih (x :: seen)
      refine ⟨h.1.cons₂ x, ?_, ?_⟩
      · rw [List.nodup_cons]
        refine ⟨fun hmem => ?_, h.2.1⟩
        exact h.2.2 x hmem (by simp)
      · intro y hy
        rcases List.mem_cons.mp hy with rfl | hy'
        · exact hx
        · intro hseen
          exact h.2.2 y hy' (by simp [hseen])

/-- C9: the conversational branch's source list is the first-occurrence
deduplication, in retrieval order, of the per-chunk labels computed by
`chunkSource` (the metadata `fileName` when truthy, else `"CSV Dataset"` for
the `csv_summary`/`csv_row` types, else the truthy `type`, else
`"Unknown source"`): it equals `dedupFirst` of the label sequence, contains
no duplicates, and is a sublist of the label sequence (so first-seen order is
preserved). -/
theorem sourcesOf_spec (chunks : List Chunk) :
    sourcesOf chunks = dedupFirst (chunks.map chunkSource) ∧
    (sourcesOf chunks).Nodup ∧
    List.Sublist (sourcesOf chunks) (chunks.map chunkSource) := by
  have h1 := sourcesOf_eq_dedupFirst chunks
  have h2 := dedupFirstAux_props (chunks.map chunkSource) []
  exact ⟨h1, by rw [h1]; exact h2.2.1, by rw [h1]; exact h2.1⟩

/-- C10: any query whose lower-cased text contains the substring `"from"` or
`"till"` (keywords in the classifier's vocabulary) is classified as
computational, and `processQuery` therefore routes it to the computational
branch — even an ordinary conversational question. -/
theorem detect_from_till_spec (query model language : String)
    (env : PipelineEnv)
    (h : includesStr (toLowerStr query) "from" = true ∨
      includesStr (toLowerStr query) "till" = true) :
    detectComputationalQuery query = true ∧
    processQuery query model language env =
      Except.ok (handleComputationalQuery query env) := by
  have hdet : detectComputationalQuery query = true := by
    unfold detectComputationalQuery
    rcases h with h | h
    · exact List.any_eq_true.mpr ⟨"from", by simp [computationKeywords], h⟩
    · exact List.any_eq_true.mpr ⟨"till", by simp [computationKeywords], h⟩
  refine ⟨hdet, ?_⟩
  unfold processQuery
  rw [if_pos hdet]

/-- An environment with no datasets for the classifier witness. -/
def plainEnv : PipelineEnv :=
  ⟨[], fun _ => Except.ok [], fun _ _ => Except.ok [],
   fun _ _ => Except.ok "generated"⟩

theorem detect_from_till_spec_witness :
    detectComputationalQuery "Where do seeds come from?" = true ∧
    processQuery "Where do seeds come from?" "google/gemma-2b-it" "english"
        plainEnv =
      Except.ok
        (handleComputationalQuery "Where do seeds come from?" plainEnv) :=
  detect_from_till_spec "Where do seeds come from?" "google/gemma-2b-it"
    "english" plainEnv (Or.inl (by decide))
